import Mathlib

/-!
Verification development for the Joplin-to-Obsidian export script
(`joplin_to_obsidian.py`).  The Python functions are shallowly embedded as
executable Lean definitions over `String` / `List Char`, and the claims of
the specification are settled as theorems about those definitions.
-/

namespace JoplinToObsidian

/-! ## Filename sanitization (`sanitize_filename`)

`re.sub(r'[\\/:"*?<>|]+', "_", name)`: each maximal nonempty run of the
illegal characters is replaced by a single underscore. -/

/-- The character class `[\\/:"*?<>|]` of the sanitizing regex. -/
def isIllegal (c : Char) : Bool :=
  c = '\\' || c = '/' || c = ':' || c = '"' || c = '*' || c = '?' ||
  c = '<' || c = '>' || c = '|'

/-- Stateful scanner implementing `re.sub(r'[...]+', "_", -)`: the flag
records whether the previous character belonged to the class (in which case
a further class character extends the current run and emits nothing). -/
def sanAux : Bool → List Char → List Char
  | _, [] => []
  | prev, c :: cs =>
    if isIllegal c then
      if prev then sanAux true cs else '_' :: sanAux true cs
    else c :: sanAux false cs

/-- `sanitize_filename(name)` from the source. -/
def sanitize_filename (s : String) : String :=
  ⟨sanAux false s.data⟩

/-- Run-based description of the same regex substitution: a maximal run of
illegal characters becomes one underscore. -/
def sanSpec : List Char → List Char
  | [] => []
  | c :: cs =>
    if isIllegal c then '_' :: sanSpec (cs.dropWhile isIllegal)
    else c :: sanSpec cs
termination_by l => l.length
decreasing_by
  · simp only [List.length_cons]
    exact Nat.lt_succ_of_le (List.dropWhile_suffix isIllegal).sublist.length_le
  · simp

/-- The specification claim C2 reads sanitization as an in-place,
per-character replacement: every illegal character becomes its own
underscore.  (Modelled from the claim's words, for comparison with
`sanitize_filename`.) -/
def sanitizePerCharClaim (s : String) : String :=
  ⟨s.data.map (fun c => if isIllegal c then '_' else c)⟩

theorem sanAux_true_eq (l : List Char) :
    sanAux true l = sanAux false (l.dropWhile isIllegal) := by
  induction l with
  | nil => rfl
  | cons c cs ih =>
    by_cases h : isIllegal c
    · simp [sanAux, h, List.dropWhile, ih]
    · simp [sanAux, h, List.dropWhile]

theorem sanAux_false_eq_sanSpec (l : List Char) : sanAux false l = sanSpec l := by
  induction l using sanSpec.induct with
  | case1 => simp [sanAux, sanSpec]
  | case2 c cs h ih =>
    rw [sanSpec, if_pos h, ← ih, sanAux, if_pos h, if_neg (by simp),
      sanAux_true_eq]
  | case3 c cs h ih =>
    rw [sanSpec, if_neg h, ← ih, sanAux, if_neg h]

theorem mem_sanAux_not_illegal {c : Char} :
    ∀ (prev : Bool) (l : List Char), c ∈ sanAux prev l → isIllegal c = false := by
  intro prev l
  induction l generalizing prev with
  | nil => intro h; simp [sanAux] at h
  | cons d ds ih =>
    intro h
    by_cases hd : isIllegal d
    · cases prev with
      | true => rw [sanAux, if_pos hd, if_pos rfl] at h; exact ih true h
      | false =>
        rw [sanAux, if_pos hd, if_neg (by simp)] at h
        rcases List.mem_cons.mp h with h | h
        · subst h; rfl
        · exact ih true h
    · rw [sanAux, if_neg hd] at h
      rcases List.mem_cons.mp h with h | h
      · subst h; exact eq_false_of_ne_true (fun hc => hd hc)
      · exact ih false h

theorem sanAux_clean (l : List Char) (h : ∀ c ∈ l, isIllegal c = false) :
    sanAux false l = l := by
  induction l with
  | nil => rfl
  | cons c cs ih =>
    have hc : isIllegal c = false := h c (List.mem_cons_self c cs)
    rw [sanAux, if_neg (by simp [hc])]
    exact congrArg (c :: ·) (ih fun d hd => h d (List.mem_cons_of_mem c hd))

/-! ## Python string helpers used by the orchestrator -/

/-- ASCII whitespace stripped by Python's `str.strip()`. -/
def isPySpace (c : Char) : Bool :=
  c = ' ' || c = '\t' || c = '\n' || c = '\r' || c = '\x0b' || c = '\x0c'

/-- `s.strip()`. -/
def pyStrip (s : String) : String :=
  ⟨((s.data.dropWhile isPySpace).reverse.dropWhile isPySpace).reverse⟩

/-- `title or "Untitled"`: a missing or empty title defaults. -/
def orUntitled : Option String → String
  | none => "Untitled"
  | some t => if t = "" then "Untitled" else t

/-- `s[:100]`. -/
def take100 (s : String) : String :=
  ⟨s.data.take 100⟩

/-- The safe title computed by `export_notes`:
`sanitize_filename((title or "Untitled").strip())[:100]`. -/
def safeTitle (title : Option String) : String :=
  take100 (sanitize_filename (pyStrip (orUntitled title)))

/-! ## Claims C1–C3 -/

/-- C2 (counterexample): the claim reads sanitization as replacing every
occurrence of an illegal character by its own underscore, legal characters
unchanged in place.  At the input `"//"` the program collapses the run of
two slashes to a single underscore, so the claimed per-character output
differs from the computed one. -/
theorem sanitize_perchar_cex :
    sanitize_filename "//" ≠ sanitizePerCharClaim "//" := by
  decide

/-- C2 (amended): sanitization replaces each maximal nonempty run of the
illegal characters `\ / : " * ? < > |` by a single underscore and leaves
legal characters unchanged in place. -/
theorem sanitize_eq_runSpec (s : String) :
    sanitize_filename s = ⟨sanSpec s.data⟩ :=
  congrArg String.mk (sanAux_false_eq_sanSpec s.data)

/-- C3: the sanitized result contains no illegal character, and
sanitization is idempotent. -/
theorem sanitize_clean_idem (s : String) :
    (∀ c ∈ (sanitize_filename s).data, isIllegal c = false) ∧
      sanitize_filename (sanitize_filename s) = sanitize_filename s := by
  constructor
  · intro c hc
    exact mem_sanAux_not_illegal false s.data hc
  · unfold sanitize_filename
    exact congrArg String.mk
      (sanAux_clean _ (fun c hc => mem_sanAux_not_illegal false s.data hc))

/-- C1 (counterexample): a whitespace-only title is claimed to export with
safe title `"Untitled"`, but `(title or "Untitled")` only replaces the
empty (or missing) title, before stripping; the single-space title
survives the default, strips to the empty string, and yields an empty
safe title. -/
theorem safeTitle_whitespace_cex :
    safeTitle (some " ") ≠ "Untitled" := by
  decide

/-- C1 (amended): a missing or empty title yields safe title `"Untitled"`
(hence the file `Untitled.md`); a nonempty all-whitespace title instead
yields the empty safe title (hence the file `.md`). -/
theorem safeTitle_blank (t : Option String) (s : String)
    (ht : t = none ∨ t = some "") (hs : s ≠ "")
    (hsp : ∀ c ∈ s.data, isPySpace c = true) :
    safeTitle t = "Untitled" ∧ safeTitle (some s) = "" := by
  constructor
  · rcases ht with h | h <;> subst h <;> decide
  · have h1 : s.data.dropWhile isPySpace = [] :=
      List.dropWhile_eq_nil_iff.mpr hsp
    have : pyStrip s = "" := by
      unfold pyStrip
      rw [h1]
      rfl
    simp [safeTitle, orUntitled, hs, this]
    decide

/-- Witness for `safeTitle_blank` at the concrete titles `""` and `" "`. -/
theorem safeTitle_blank_witness :
    safeTitle (some "") = "Untitled" ∧ safeTitle (some " ") = "" :=
  safeTitle_blank (some "") " " (Or.inr rfl) (by decide) (by decide)

/-! ## Resource reference scanning (`process_resources`, text part)

The reference pattern is the regex `!\[\]\(:/([a-f0-9]{32})\)`.  `findAll`
models `re.findall` (left-to-right, non-overlapping, advancing one
character on failure) and `subAll` models `re.sub` with a replacement
function. -/

/-- The fixed prefix `![](:/ ` of the reference pattern. -/
def refHead : List Char := ['!', '[', ']', '(', ':', '/']

/-- The character class `[a-f0-9]` of the identifier. -/
def isLowerHex (c : Char) : Bool :=
  c.isDigit || ('a' ≤ c && c ≤ 'f')

/-- Try to match the reference pattern at the head of `l`; on success
return the captured 32-hex identifier and the remainder of the input. -/
def matchRef (l : List Char) : Option (String × List Char) :=
  if refHead.isPrefixOf l then
    if ((l.drop 6).take 32).length == 32 && ((l.drop 6).take 32).all isLowerHex then
      match (l.drop 6).drop 32 with
      | ')' :: rest => some (⟨(l.drop 6).take 32⟩, rest)
      | _ => none
    else none
  else none

/-- The full text of a reference, `![](:/<rid>)`. -/
def refText (rid : String) : String := "![](:/" ++ rid ++ ")"

theorem matchRef_shape {l : List Char} {rid : String} {rest : List Char}
    (h : matchRef l = some (rid, rest)) :
    l = (refText rid).data ++ rest := by
  unfold matchRef at h
  split at h
  case isFalse => exact absurd h (by simp)
  case isTrue hpre =>
    split at h
    case isFalse => exact absurd h (by simp)
    case isTrue hhex =>
      split at h
      case h_2 => exact absurd h (by simp)
      case h_1 rest' hr =>
        obtain ⟨h1, h2⟩ := Prod.mk.injEq .. ▸ Option.some.injEq .. ▸ h
        subst h2
        have hl : l = refHead ++ l.drop 6 := by
          obtain ⟨t, ht⟩ := List.isPrefixOf_iff_prefix.mp hpre
          conv_lhs => rw [← ht]
          rw [← ht, List.drop_left' (by rfl)]
        have hdata : rid.data = (l.drop 6).take 32 := by rw [← h1]
        have hsplit : l.drop 6 = (l.drop 6).take 32 ++ (l.drop 6).drop 32 :=
          (List.take_append_drop 32 (l.drop 6)).symm
        rw [hl, hsplit, hr, ← hdata]
        simp [refText, refHead, String.data_append]

theorem matchRef_rest_length {l : List Char} {rid : String} {rest : List Char}
    (h : matchRef l = some (rid, rest)) : rest.length < l.length := by
  have hs := matchRef_shape h
  have : l.length = (refText rid).data.length + rest.length := by
    rw [hs, List.length_append]
  have hpos : 0 < (refText rid).data.length := by
    simp [refText, String.data_append]
  omega

/-- `re.findall(r'!\[\]\(:/([a-f0-9]{32})\)', body)`. -/
def findAll : List Char → List String
  | [] => []
  | c :: cs =>
    match h : matchRef (c :: cs) with
    | some (rid, rest) => rid :: findAll rest
    | none => findAll cs
termination_by l => l.length
decreasing_by
  · exact matchRef_rest_length h
  · simp

/-- `re.sub(r'!\[\]\(:/([a-f0-9]{32})\)', repl, body)` where `repl` maps the
captured identifier to the replacement text. -/
def subAll (repl : String → List Char) : List Char → List Char
  | [] => []
  | c :: cs =>
    match h : matchRef (c :: cs) with
    | some (rid, rest) => repl rid ++ subAll repl rest
    | none => c :: subAll repl cs
termination_by l => l.length
decreasing_by
  · exact matchRef_rest_length h
  · simp

/-! ## Per-note rename mapping -/

/-- The image extension allow-list `IMAGE_EXTENSIONS`. -/
def IMAGE_EXTENSIONS : List String :=
  ["png", "jpg", "jpeg", "gif", "bmp", "svg", "webp"]

/-- `res_filename.split(".")[-1].lower()`: the (ASCII-lowercased) segment
after the last `.`, or the whole string when there is no dot. -/
def extOf (s : String) : String :=
  ⟨((s.data.reverse.takeWhile (fun c => !(c == '.'))).reverse).map Char.toLower⟩

/-- `f"{n:03d}"`: decimal, zero-padded to at least three digits. -/
def pad3 (n : Nat) : String :=
  ⟨List.replicate (3 - (toString n).length) '0'⟩ ++ toString n

/-- Deduplicate preserving first-occurrence order (the `seen_rids` /
`unique_rids` loop). -/
def dedupRids : List String → List String :=
  go []
where
  go : List String → List String → List String
  | _, [] => []
  | seen, r :: rs => if r ∈ seen then go seen rs else r :: go (r :: seen) rs

/-- The `for rid in unique_rids` loop building `rid_to_new_filename`:
identifiers missing from the index are skipped; image extensions get
`<base>-<counter+1:03d>.<ext>`; other resources keep their stored
filename. -/
def assignGo (lk : List (String × String)) (base : String) :
    List String → Nat → List (String × String)
  | [], _ => []
  | rid :: rest, counter =>
    match lk.lookup rid with
    | none => assignGo lk base rest counter
    | some fname =>
      let ext := extOf fname
      if IMAGE_EXTENSIONS.contains ext then
        (rid, base ++ "-" ++ pad3 (counter + 1) ++ "." ++ ext) ::
          assignGo lk base rest (counter + 1)
      else (rid, fname) :: assignGo lk base rest counter

/-- The complete `rid_to_new_filename` mapping computed by
`process_resources` for a note body. -/
def ridToNewFilename (body : String) (lk : List (String × String))
    (base : String) : List (String × String) :=
  assignGo lk base (dedupRids (findAll body.data)) 0

/-- The `replace_resource` callback of the final `re.sub`: a mapped
identifier becomes `![](<new filename>)`, an unmapped one reproduces the
original matched text. -/
def replFn (m : List (String × String)) (rid : String) : List Char :=
  match m.lookup rid with
  | some nf => ("![](" ++ nf ++ ")").data
  | none => (refText rid).data

/-- The literal `&nbsp;`. -/
def nbspPat : List Char := ['&', 'n', 'b', 's', 'p', ';']

/-- `body_processed.replace("&nbsp;", " ")`: global, left-to-right,
non-overlapping replacement by a single space. -/
def replaceNbsp : List Char → List Char
  | [] => []
  | c :: cs =>
    if nbspPat.isPrefixOf (c :: cs) then ' ' :: replaceNbsp ((c :: cs).drop 6)
    else c :: replaceNbsp cs
termination_by l => l.length
decreasing_by
  · simp only [List.drop_succ_cons, List.length_drop, List.length_cons]
    omega
  · simp

/-- The text returned by `process_resources`: link rewriting via the
rename mapping, then the global `&nbsp;` replacement. -/
def processResourcesText (body : String) (lk : List (String × String))
    (base : String) : String :=
  ⟨replaceNbsp (subAll (replFn (ridToNewFilename body lk base)) body.data)⟩

/-! ### Unfolding equations for the scanners -/

theorem findAll_nil : findAll [] = [] := by simp [findAll]

theorem findAll_some {c : Char} {cs : List Char} {rid : String}
    {rest : List Char} (h : matchRef (c :: cs) = some (rid, rest)) :
    findAll (c :: cs) = rid :: findAll rest := by
  rw [findAll, h]

theorem findAll_none {c : Char} {cs : List Char}
    (h : matchRef (c :: cs) = none) : findAll (c :: cs) = findAll cs := by
  rw [findAll, h]

theorem subAll_nil (f : String → List Char) : subAll f [] = [] := by
  simp [subAll]

theorem subAll_some (f : String → List Char) {c : Char} {cs : List Char}
    {rid : String} {rest : List Char}
    (h : matchRef (c :: cs) = some (rid, rest)) :
    subAll f (c :: cs) = f rid ++ subAll f rest := by
  rw [subAll, h]

theorem subAll_none (f : String → List Char) {c : Char} {cs : List Char}
    (h : matchRef (c :: cs) = none) :
    subAll f (c :: cs) = c :: subAll f cs := by
  rw [subAll, h]

/-! ## Claim C5: identifiers absent from the resource index -/

theorem assignGo_lookup_none (lk : List (String × String)) (base : String)
    (rid : String) (h : lk.lookup rid = none) :
    ∀ (l : List String) (counter : Nat),
      (assignGo lk base l counter).lookup rid = none := by
  intro l
  induction l with
  | nil => intro counter; rfl
  | cons r rs ih =>
    intro counter
    have hne : ∀ v, lk.lookup r = some v → (rid == r) = false := by
      intro v hv
      by_contra hcon
      have : rid = r := by
        have := eq_true_of_ne_false hcon
        exact eq_of_beq this
      rw [← this, h] at hv
      exact Option.noConfusion hv
    rw [assignGo]
    cases hr : lk.lookup r with
    | none => exact ih counter
    | some fname =>
      by_cases himg : IMAGE_EXTENSIONS.contains (extOf fname)
      · simp only [himg, if_true, List.lookup, hne fname hr]
        exact ih (counter + 1)
      · simp only [himg, if_false, Bool.false_eq_true, List.lookup, hne fname hr]
        exact ih counter

/-- If every identifier matched in `l` is rewritten to its original
reference text, the substitution is the identity. -/
theorem subAll_id (f : String → List Char) :
    ∀ l : List Char, (∀ r ∈ findAll l, f r = (refText r).data) →
      subAll f l = l := by
  intro l
  induction l using subAll.induct f with
  | case1 => intro _; exact subAll_nil f
  | case2 c cs rid rest h ih =>
    intro hall
    rw [subAll_some f h]
    have hr : f rid = (refText rid).data := by
      apply hall
      rw [findAll_some h]
      exact List.mem_cons_self rid _
    have hrest : ∀ r ∈ findAll rest, f r = (refText r).data := by
      intro r hrr
      apply hall
      rw [findAll_some h]
      exact List.mem_cons_of_mem rid hrr
    rw [hr, ih hrest, ← matchRef_shape h]
  | case3 c cs h ih =>
    intro hall
    rw [subAll_none f h]
    have hrest : ∀ r ∈ findAll cs, f r = (refText r).data := by
      intro r hrr
      apply hall
      rw [findAll_none h]
      exact hrr
    rw [ih hrest]

/-- C5: a reference whose identifier is absent from the resource index
receives no entry in the rename mapping (so the copy loop, which iterates
over that mapping, copies nothing for it), its occurrences are reproduced
verbatim by the rewriting callback, and when every matched identifier is
absent the whole pre-`&nbsp;` rewriting is the identity. -/
theorem missing_rid_preserved (body base rid : String)
    (lk : List (String × String)) (h : lk.lookup rid = none) :
    (ridToNewFilename body lk base).lookup rid = none ∧
    replFn (ridToNewFilename body lk base) rid = (refText rid).data ∧
    ((∀ r ∈ findAll body.data, lk.lookup r = none) →
      subAll (replFn (ridToNewFilename body lk base)) body.data = body.data) := by
  have h1 : (ridToNewFilename body lk base).lookup rid = none :=
    assignGo_lookup_none lk base rid h _ 0
  refine ⟨h1, ?_, ?_⟩
  · rw [replFn, h1]
  · intro hall
    apply subAll_id
    intro r hr
    have h2 : (ridToNewFilename body lk base).lookup r = none :=
      assignGo_lookup_none lk base r (hall r hr) _ 0
    rw [replFn, h2]

/-- Witness for `missing_rid_preserved`: a body whose single reference
identifier is missing from an empty index passes through unchanged. -/
theorem missing_rid_preserved_witness :
    ([] : List (String × String)).lookup "aaaaaaaaaaaaaaaaaaaaaaaaaaaaaaaa" = none ∧
    (ridToNewFilename "![](:/aaaaaaaaaaaaaaaaaaaaaaaaaaaaaaaa)" [] "Trip").lookup
        "aaaaaaaaaaaaaaaaaaaaaaaaaaaaaaaa" = none ∧
      replFn (ridToNewFilename "![](:/aaaaaaaaaaaaaaaaaaaaaaaaaaaaaaaa)" [] "Trip")
          "aaaaaaaaaaaaaaaaaaaaaaaaaaaaaaaa" =
        (refText "aaaaaaaaaaaaaaaaaaaaaaaaaaaaaaaa").data ∧
      ((∀ r ∈ findAll "![](:/aaaaaaaaaaaaaaaaaaaaaaaaaaaaaaaa)".data,
          ([] : List (String × String)).lookup r = none) →
        subAll (replFn (ridToNewFilename "![](:/aaaaaaaaaaaaaaaaaaaaaaaaaaaaaaaa)" [] "Trip"))
            "![](:/aaaaaaaaaaaaaaaaaaaaaaaaaaaaaaaa)".data =
          "![](:/aaaaaaaaaaaaaaaaaaaaaaaaaaaaaaaa)".data) :=
  ⟨rfl, missing_rid_preserved "![](:/aaaaaaaaaaaaaaaaaaaaaaaaaaaaaaaa)" "Trip"
    "aaaaaaaaaaaaaaaaaaaaaaaaaaaaaaaa" [] rfl⟩

/-! ## Claim C4: per-note image sequence numbering -/

theorem refText_data (rid : String) :
    (refText rid).data = refHead ++ (rid.data ++ (')' :: [])) := by
  simp [refText, refHead, String.data_append]

theorem matchRef_refText (rid : String) (h32 : rid.data.length = 32)
    (hhex : rid.data.all isLowerHex = true) (rest : List Char) :
    matchRef ((refText rid).data ++ rest) = some (rid, rest) := by
  have hl : (refText rid).data ++ rest = refHead ++ (rid.data ++ (')' :: rest)) := by
    rw [refText_data]
    simp
  have hdrop : ((refText rid).data ++ rest).drop 6 = rid.data ++ (')' :: rest) := by
    rw [hl]
    exact List.drop_left' (by rfl)
  have htake : (((refText rid).data ++ rest).drop 6).take 32 = rid.data := by
    rw [hdrop]
    exact List.take_left' h32
  have hdrop32 : (((refText rid).data ++ rest).drop 6).drop 32 = ')' :: rest := by
    rw [hdrop]
    exact List.drop_left' h32
  have hpre : refHead.isPrefixOf ((refText rid).data ++ rest) = true := by
    rw [hl]
    exact List.isPrefixOf_iff_prefix.mpr ⟨_, rfl⟩
  rw [matchRef, if_pos hpre, htake, hdrop32, if_pos (by simp [h32, hhex])]
  rfl

theorem findAll_eq_some {l : List Char} {rid : String} {rest : List Char}
    (h : matchRef l = some (rid, rest)) :
    findAll l = rid :: findAll rest := by
  cases l with
  | nil =>
    rw [show matchRef ([] : List Char) = none from rfl] at h
    exact Option.noConfusion h
  | cons c cs => rw [findAll, h]

theorem findAll_refText_cons (rid : String) (h32 : rid.data.length = 32)
    (hhex : rid.data.all isLowerHex = true) (rest : List Char) :
    findAll ((refText rid).data ++ rest) = rid :: findAll rest :=
  findAll_eq_some (matchRef_refText rid h32 hhex rest)

/-- C4: when the scanner finds references `R1, R2, R1, R3` in that order,
`R1, R2` resolving to image extensions and `R3` to a non-image one, the
rename mapping gives `R1` sequence number 001 and `R2` 002 (the counter,
local to this call, advances only on images), maps `R3` to its stored
filename unchanged, and the rewriting callback sends every occurrence of
`R1` to the same `![](<base>-001.<ext>)` text. -/
theorem image_sequence_assignment (body base r1 r2 r3 f1 f2 f3 : String)
    (lk : List (String × String))
    (hm : findAll body.data = [r1, r2, r1, r3])
    (h12 : r1 ≠ r2) (h13 : r1 ≠ r3) (h23 : r2 ≠ r3)
    (hl1 : lk.lookup r1 = some f1) (hl2 : lk.lookup r2 = some f2)
    (hl3 : lk.lookup r3 = some f3)
    (hi1 : IMAGE_EXTENSIONS.contains (extOf f1) = true)
    (hi2 : IMAGE_EXTENSIONS.contains (extOf f2) = true)
    (hi3 : IMAGE_EXTENSIONS.contains (extOf f3) = false) :
    ridToNewFilename body lk base =
      [(r1, base ++ "-" ++ "001" ++ "." ++ extOf f1),
        (r2, base ++ "-" ++ "002" ++ "." ++ extOf f2), (r3, f3)] ∧
    replFn (ridToNewFilename body lk base) r1 =
      ("![](" ++ (base ++ "-" ++ "001" ++ "." ++ extOf f1) ++ ")").data ∧
    replFn (ridToNewFilename body lk base) r3 = ("![](" ++ f3 ++ ")").data := by
  have hdp : dedupRids [r1, r2, r1, r3] = [r1, r2, r3] := by
    simp [dedupRids, dedupRids.go, Ne.symm h12, Ne.symm h13, Ne.symm h23]
  have hmap : ridToNewFilename body lk base =
      [(r1, base ++ "-" ++ "001" ++ "." ++ extOf f1),
        (r2, base ++ "-" ++ "002" ++ "." ++ extOf f2), (r3, f3)] := by
    unfold ridToNewFilename
    rw [hm, hdp]
    simp only [assignGo, hl1, hl2, hl3, hi1, hi2, hi3, if_true, if_false,
      Bool.false_eq_true]
    rfl
  refine ⟨hmap, ?_, ?_⟩
  · rw [replFn, hmap]
    simp only [List.lookup, beq_self_eq_true]
  · have e1 : (r3 == r1) = false := beq_eq_false_iff_ne.mpr (Ne.symm h13)
    have e2 : (r3 == r2) = false := beq_eq_false_iff_ne.mpr (Ne.symm h23)
    rw [replFn, hmap]
    simp only [List.lookup, e1, e2, beq_self_eq_true]

/-- Witness for `image_sequence_assignment` at a concrete body with
references `R1, R2, R1, R3`. -/
theorem image_sequence_assignment_witness :
    findAll (refText "aaaaaaaaaaaaaaaaaaaaaaaaaaaaaaaa" ++
        refText "bbbbbbbbbbbbbbbbbbbbbbbbbbbbbbbb" ++
        refText "aaaaaaaaaaaaaaaaaaaaaaaaaaaaaaaa" ++
        refText "cccccccccccccccccccccccccccccccc").data =
      ["aaaaaaaaaaaaaaaaaaaaaaaaaaaaaaaa", "bbbbbbbbbbbbbbbbbbbbbbbbbbbbbbbb",
        "aaaaaaaaaaaaaaaaaaaaaaaaaaaaaaaa", "cccccccccccccccccccccccccccccccc"] ∧
    ridToNewFilename
        (refText "aaaaaaaaaaaaaaaaaaaaaaaaaaaaaaaa" ++
          refText "bbbbbbbbbbbbbbbbbbbbbbbbbbbbbbbb" ++
          refText "aaaaaaaaaaaaaaaaaaaaaaaaaaaaaaaa" ++
          refText "cccccccccccccccccccccccccccccccc")
        [("aaaaaaaaaaaaaaaaaaaaaaaaaaaaaaaa", "x.png"),
          ("bbbbbbbbbbbbbbbbbbbbbbbbbbbbbbbb", "y.jpg"),
          ("cccccccccccccccccccccccccccccccc", "doc.pdf")] "Trip" =
      [("aaaaaaaaaaaaaaaaaaaaaaaaaaaaaaaa",
          "Trip" ++ "-" ++ "001" ++ "." ++ extOf "x.png"),
        ("bbbbbbbbbbbbbbbbbbbbbbbbbbbbbbbb",
          "Trip" ++ "-" ++ "002" ++ "." ++ extOf "y.jpg"),
        ("cccccccccccccccccccccccccccccccc", "doc.pdf")] := by
  have hfa : findAll (refText "aaaaaaaaaaaaaaaaaaaaaaaaaaaaaaaa" ++
      refText "bbbbbbbbbbbbbbbbbbbbbbbbbbbbbbbb" ++
      refText "aaaaaaaaaaaaaaaaaaaaaaaaaaaaaaaa" ++
      refText "cccccccccccccccccccccccccccccccc").data =
      ["aaaaaaaaaaaaaaaaaaaaaaaaaaaaaaaa", "bbbbbbbbbbbbbbbbbbbbbbbbbbbbbbbb",
        "aaaaaaaaaaaaaaaaaaaaaaaaaaaaaaaa", "cccccccccccccccccccccccccccccccc"] := by
    rw [show (refText "aaaaaaaaaaaaaaaaaaaaaaaaaaaaaaaa" ++
        refText "bbbbbbbbbbbbbbbbbbbbbbbbbbbbbbbb" ++
        refText "aaaaaaaaaaaaaaaaaaaaaaaaaaaaaaaa" ++
        refText "cccccccccccccccccccccccccccccccc").data =
        (refText "aaaaaaaaaaaaaaaaaaaaaaaaaaaaaaaa").data ++
          ((refText "bbbbbbbbbbbbbbbbbbbbbbbbbbbbbbbb").data ++
            ((refText "aaaaaaaaaaaaaaaaaaaaaaaaaaaaaaaa").data ++
              ((refText "cccccccccccccccccccccccccccccccc").data ++ []))) by
      simp [String.data_append]]
    rw [findAll_refText_cons _ (by decide) (by decide) _,
      findAll_refText_cons _ (by decide) (by decide) _,
      findAll_refText_cons _ (by decide) (by decide) _,
      findAll_refText_cons _ (by decide) (by decide) _, findAll_nil]
  exact ⟨hfa,
    (image_sequence_assignment _ "Trip" _ _ _ "x.png" "y.jpg" "doc.pdf"
      [("aaaaaaaaaaaaaaaaaaaaaaaaaaaaaaaa", "x.png"),
        ("bbbbbbbbbbbbbbbbbbbbbbbbbbbbbbbb", "y.jpg"),
        ("cccccccccccccccccccccccccccccccc", "doc.pdf")] hfa
      (by decide) (by decide) (by decide) rfl rfl rfl (by decide) (by decide)
      (by decide)).1⟩

/-! ## Claim C6: the `&nbsp;` replacement is global and runs last -/

/-- Decidable check for an occurrence of `&nbsp;` anywhere in the text. -/
def containsNbsp : List Char → Bool
  | [] => false
  | c :: cs => nbspPat.isPrefixOf (c :: cs) || containsNbsp cs

theorem replaceNbsp_nil : replaceNbsp [] = [] := by simp [replaceNbsp]

theorem replaceNbsp_pos {c : Char} {cs : List Char}
    (h : nbspPat.isPrefixOf (c :: cs) = true) :
    replaceNbsp (c :: cs) = ' ' :: replaceNbsp ((c :: cs).drop 6) := by
  rw [replaceNbsp, if_pos h]

theorem replaceNbsp_neg {c : Char} {cs : List Char}
    (h : ¬ nbspPat.isPrefixOf (c :: cs) = true) :
    replaceNbsp (c :: cs) = c :: replaceNbsp cs := by
  rw [replaceNbsp, if_neg h]

/-- A space-free prefix of the replaced text is already a prefix of the
original text. -/
theorem prefix_replaceNbsp_of_no_space :
    ∀ (cs x : List Char), (∀ c ∈ x, c ≠ ' ') → x <+: replaceNbsp cs →
      x <+: cs := by
  intro cs
  induction cs using replaceNbsp.induct with
  | case1 =>
    intro x _ hx
    rw [replaceNbsp_nil] at hx
    exact hx
  | case2 c cs h ih =>
    intro x hsp hx
    rw [replaceNbsp_pos h] at hx
    cases x with
    | nil => exact List.nil_prefix
    | cons y ys =>
      have : y = ' ' := (List.cons_prefix_cons.mp hx).1
      exact absurd this (hsp y (List.mem_cons_self y ys))
  | case3 c cs h ih =>
    intro x hsp hx
    rw [replaceNbsp_neg h] at hx
    cases x with
    | nil => exact List.nil_prefix
    | cons y ys =>
      obtain ⟨hy, hys⟩ := List.cons_prefix_cons.mp hx
      subst hy
      exact List.cons_prefix_cons.mpr
        ⟨rfl, ih ys (fun d hd => hsp d (List.mem_cons_of_mem y hd)) hys⟩

theorem containsNbsp_replaceNbsp (l : List Char) :
    containsNbsp (replaceNbsp l) = false := by
  induction l using replaceNbsp.induct with
  | case1 => rw [replaceNbsp_nil]; rfl
  | case2 c cs h ih =>
    rw [replaceNbsp_pos h, containsNbsp]
    simp only [ih, Bool.or_false]
    simp [nbspPat, List.isPrefixOf]
  | case3 c cs h ih =>
    rw [replaceNbsp_neg h, containsNbsp]
    simp only [ih, Bool.or_false]
    by_contra hcon
    have hpre : nbspPat <+: c :: replaceNbsp cs :=
      List.isPrefixOf_iff_prefix.mp (eq_true_of_ne_false hcon)
    have hc : c = '&' := ((List.cons_prefix_cons.mp hpre).1).symm
    have htail : ['n', 'b', 's', 'p', ';'] <+: replaceNbsp cs :=
      (List.cons_prefix_cons.mp hpre).2
    have htail' : ['n', 'b', 's', 'p', ';'] <+: cs :=
      prefix_replaceNbsp_of_no_space cs _ (by decide) htail
    have : nbspPat.isPrefixOf (c :: cs) = true := by
      subst hc
      exact List.isPrefixOf_iff_prefix.mpr (List.cons_prefix_cons.mpr ⟨rfl, htail'⟩)
    exact h this

/-- C6: the text produced by `process_resources` is exactly the link
rewriting of the raw body followed by the global `&nbsp;`-to-space
replacement (the replacement runs after rewriting, never before), and it
is global: no `&nbsp;` survives in the output. -/
theorem nbsp_replaced_globally_after (body base : String)
    (lk : List (String × String)) :
    processResourcesText body lk base =
      ⟨replaceNbsp (subAll (replFn (ridToNewFilename body lk base)) body.data)⟩ ∧
    containsNbsp (processResourcesText body lk base).data = false :=
  ⟨rfl, containsNbsp_replaceNbsp _⟩

/-! ## Filesystem model

The effectful part of the script is modelled over an abstract filesystem:
files are an association list from path to contents (newest entry first),
directories a list of paths.  `os.path.exists` checks both; `os.makedirs`
is modelled as creating the given directory path; `shutil.copyfile`
writes the source's contents at the destination. -/

structure FS where
  files : List (String × String)
  dirs : List String
deriving DecidableEq

/-- `os.path.exists`. -/
def FS.pathExists (fs : FS) (p : String) : Bool :=
  (fs.files.lookup p).isSome || fs.dirs.contains p

/-- Contents of the file at `p`, if any. -/
def FS.readFile (fs : FS) (p : String) : Option String :=
  fs.files.lookup p

/-- `open(p, "w").write(c)`: unconditional (over)write. -/
def FS.writeFile (fs : FS) (p c : String) : FS :=
  ⟨(p, c) :: fs.files, fs.dirs⟩

/-- `os.makedirs(p)`. -/
def FS.mkdir (fs : FS) (p : String) : FS :=
  ⟨fs.files, p :: fs.dirs⟩

/-- `shutil.copyfile(src, dst)`. -/
def FS.copyFile (fs : FS) (src dst : String) : FS :=
  fs.writeFile dst ((fs.readFile src).getD "")

/-- `os.path.join` for POSIX paths, as used by the script (the right
operand never contains a separator after sanitization). -/
def pjoin (a b : String) : String :=
  if b.data.head? = some '/' then b
  else if a.data = [] ∨ a.data.getLast? = some '/' then a ++ b
  else a ++ "/" ++ b

/-! ## The asset copy loop of `process_resources` -/

/-- One iteration of the `for rid, new_filename in rid_to_new_filename`
copy loop: copy `<resDir>/<stored name>` to `<assetsDir>/<new name>` when
the source exists and the destination does not, creating the assets
directory lazily (the `Bool` component is the `assets_created` flag). -/
def copyStep (resDir assetsDir : String) (lk : List (String × String))
    (st : FS × Bool) (pr : String × String) : FS × Bool :=
  let src := pjoin resDir ((lk.lookup pr.1).getD "")
  let dst := pjoin assetsDir pr.2
  if st.1.pathExists src && !(st.1.pathExists dst) then
    let st1 := if !st.2 && !(st.1.pathExists assetsDir)
      then (st.1.mkdir assetsDir, true) else st
    (st1.1.copyFile src dst, st1.2)
  else st

/-- The whole copy loop, starting with `assets_created = False`. -/
def copyResources (resDir assetsDir : String) (lk : List (String × String))
    (m : List (String × String)) (fs : FS) : FS :=
  (m.foldl (copyStep resDir assetsDir lk) (fs, false)).1

/-- `process_resources(body, resource_lookup, note_base_name, assets_dir)`:
computes the rename mapping, performs the guarded copies, and returns the
rewritten text. -/
def process_resources (fs : FS) (resDir assetsDir : String) (body : String)
    (lk : List (String × String)) (note_base_name : String) : FS × String :=
  (copyResources resDir assetsDir lk (ridToNewFilename body lk note_base_name) fs,
   processResourcesText body lk note_base_name)

/-! ## Claim C8: at-most-once asset copies -/

theorem FS.readFile_copyFile_ne {p dst : String} (fs : FS) (src : String)
    (hne : (p == dst) = false) :
    (fs.copyFile src dst).readFile p = fs.readFile p := by
  simp only [FS.copyFile, FS.writeFile, FS.readFile, List.lookup, hne]

theorem FS.pathExists_copyFile_ne {p dst : String} (fs : FS) (src : String)
    (hne : (p == dst) = false) :
    (fs.copyFile src dst).pathExists p = fs.pathExists p := by
  simp only [FS.pathExists, FS.copyFile, FS.writeFile, FS.readFile,
    List.lookup, hne]

theorem FS.readFile_mkdir (fs : FS) (p q : String) :
    (fs.mkdir q).readFile p = fs.readFile p := rfl

theorem FS.pathExists_mkdir_true {p : String} (fs : FS) (q : String)
    (h : fs.pathExists p = true) : (fs.mkdir q).pathExists p = true := by
  simp only [FS.pathExists, FS.mkdir, List.contains_cons] at h ⊢
  rcases Bool.or_eq_true .. |>.mp h with h' | h'
  · exact Bool.or_eq_true .. |>.mpr (Or.inl h')
  · exact Bool.or_eq_true .. |>.mpr (Or.inr (Bool.or_eq_true .. |>.mpr (Or.inr h')))

theorem copyStep_preserves (resDir assetsDir : String)
    (lk : List (String × String)) (st : FS × Bool) (pr : String × String)
    (p : String) (h : st.1.pathExists p = true) :
    (copyStep resDir assetsDir lk st pr).1.pathExists p = true ∧
    (copyStep resDir assetsDir lk st pr).1.readFile p = st.1.readFile p := by
  unfold copyStep
  by_cases hc : (st.1.pathExists (pjoin resDir ((lk.lookup pr.1).getD "")) &&
      !(st.1.pathExists (pjoin assetsDir pr.2))) = true
  · have hdst : st.1.pathExists (pjoin assetsDir pr.2) = false := by
      rcases Bool.and_eq_true .. |>.mp hc with ⟨_, hne⟩
      simpa using hne
    have hpd : (p == pjoin assetsDir pr.2) = false := by
      apply beq_eq_false_iff_ne.mpr
      intro he
      rw [he, hdst] at h
      exact Bool.noConfusion h
    simp only [hc, if_true]
    by_cases hmk : (!st.2 && !(st.1.pathExists assetsDir)) = true
    · simp only [hmk, if_true]
      refine ⟨?_, ?_⟩
      · rw [FS.pathExists_copyFile_ne _ _ hpd]
        exact FS.pathExists_mkdir_true st.1 assetsDir h
      · rw [FS.readFile_copyFile_ne _ _ hpd, FS.readFile_mkdir]
    · simp only [hmk, if_false, Bool.false_eq_true]
      exact ⟨by rw [FS.pathExists_copyFile_ne _ _ hpd]; exact h,
        FS.readFile_copyFile_ne _ _ hpd⟩
  · simp only [hc, if_false, Bool.false_eq_true]
    exact ⟨h, trivial⟩

theorem copyLoop_preserves (resDir assetsDir : String)
    (lk : List (String × String)) (m : List (String × String)) :
    ∀ (st : FS × Bool) (p : String), st.1.pathExists p = true →
      (m.foldl (copyStep resDir assetsDir lk) st).1.pathExists p = true ∧
      (m.foldl (copyStep resDir assetsDir lk) st).1.readFile p = st.1.readFile p := by
  induction m with
  | nil => intro st p h; exact ⟨h, rfl⟩
  | cons pr rest ih =>
    intro st p h
    have h1 := copyStep_preserves resDir assetsDir lk st pr p h
    have h2 := ih (copyStep resDir assetsDir lk st pr) p h1.1
    exact ⟨h2.1, h2.2.trans h1.2⟩

/-- C8: the copy loop never touches an already-existing path: the contents
at any path that exists before the loop are unchanged after it (so an
existing destination asset is never overwritten), and consequently
re-running the loop on its own output performs no copy at any path that
exists after the first run. -/
theorem asset_copy_at_most_once (resDir assetsDir : String)
    (lk m : List (String × String)) (fs : FS) (p : String)
    (h : fs.pathExists p = true) :
    (copyResources resDir assetsDir lk m fs).readFile p = fs.readFile p ∧
    (copyResources resDir assetsDir lk m fs).pathExists p = true ∧
    (copyResources resDir assetsDir lk m
        (copyResources resDir assetsDir lk m fs)).readFile p =
      (copyResources resDir assetsDir lk m fs).readFile p := by
  have h1 := copyLoop_preserves resDir assetsDir lk m (fs, false) p h
  have h2 := copyLoop_preserves resDir assetsDir lk m
    (copyResources resDir assetsDir lk m fs, false) p h1.1
  exact ⟨h1.2, h1.1, h2.2⟩

/-- Witness for `asset_copy_at_most_once`: an already-present destination
asset `assets/b.png` keeps its old contents through the copy loop. -/
theorem asset_copy_at_most_once_witness :
    (FS.mk [("assets/b.png", "OLD"), ("res/a.png", "NEW")] ["assets"]).pathExists
        "assets/b.png" = true ∧
    (copyResources "res" "assets" [("r", "a.png")] [("r", "b.png")]
        (FS.mk [("assets/b.png", "OLD"), ("res/a.png", "NEW")] ["assets"])).readFile
        "assets/b.png" =
      (FS.mk [("assets/b.png", "OLD"), ("res/a.png", "NEW")] ["assets"]).readFile
        "assets/b.png" :=
  ⟨by decide,
    (asset_copy_at_most_once "res" "assets" [("r", "a.png")] [("r", "b.png")]
      (FS.mk [("assets/b.png", "OLD"), ("res/a.png", "NEW")] ["assets"])
      "assets/b.png" (by decide)).1⟩

/-! ## Claim C10: indexed resource whose source file is missing -/

theorem mem_dedupRids_go (rid : String) :
    ∀ (l seen : List String), rid ∈ l → rid ∉ seen → rid ∈ dedupRids.go seen l := by
  intro l
  induction l with
  | nil => intro seen h _; exact absurd h (List.not_mem_nil rid)
  | cons r rs ih =>
    intro seen h hns
    rw [dedupRids.go]
    by_cases hr : r ∈ seen
    · rw [if_pos hr]
      rcases List.mem_cons.mp h with he | he
      · exact absurd (he ▸ hr) hns
      · exact ih seen he hns
    · rw [if_neg hr]
      rcases List.mem_cons.mp h with he | he
      · exact he ▸ List.mem_cons_self rid _
      · by_cases he' : rid = r
        · exact he' ▸ List.mem_cons_self r _
        · exact List.mem_cons_of_mem r
            (ih (r :: seen) he (by simp [he', hns]))

theorem assignGo_lookup_some (lk : List (String × String)) (base rid fname : String)
    (h : lk.lookup rid = some fname) :
    ∀ (l : List String) (counter : Nat), rid ∈ l →
      ∃ nm, (assignGo lk base l counter).lookup rid = some nm := by
  intro l
  induction l with
  | nil => intro counter hm; exact absurd hm (List.not_mem_nil rid)
  | cons r rs ih =>
    intro counter hm
    rw [assignGo]
    by_cases he : rid = r
    · subst he
      rw [h]
      by_cases himg : IMAGE_EXTENSIONS.contains (extOf fname) = true
      · exact ⟨base ++ "-" ++ pad3 (counter + 1) ++ "." ++ extOf fname,
          by simp only [himg, if_true, List.lookup, beq_self_eq_true]⟩
      · exact ⟨fname, by simp only [(Bool.not_eq_true _).mp himg, if_false,
          Bool.false_eq_true, List.lookup, beq_self_eq_true]⟩
    · have hm' : rid ∈ rs := by
        rcases List.mem_cons.mp hm with h' | h'
        · exact absurd h' he
        · exact h'
      have hne : (rid == r) = false := beq_eq_false_iff_ne.mpr he
      cases hlr : lk.lookup r with
      | none => exact ih counter hm'
      | some g =>
        by_cases himg : IMAGE_EXTENSIONS.contains (extOf g) = true
        · obtain ⟨nm, hnm⟩ := ih (counter + 1) hm'
          exact ⟨nm, by simp only [himg, if_true, List.lookup, hne, hnm]⟩
        · obtain ⟨nm, hnm⟩ := ih counter hm'
          exact ⟨nm, by simp only [(Bool.not_eq_true _).mp himg, if_false,
            Bool.false_eq_true, List.lookup, hne, hnm]⟩

/-- C10: a reference whose identifier is in the index but whose source
file is missing on disk is silently skipped by the copy iteration (the
filesystem state and `assets_created` flag pass through unchanged, so no
directory is created for it and nothing is copied), yet the identifier
still receives a rename-mapping entry and every occurrence in the text is
rewritten to the assigned new filename — a dangling link. -/
theorem missing_source_still_rewritten (resDir assetsDir : String)
    (lk : List (String × String)) (st : FS × Bool) (rid nf fname : String)
    (hl : lk.lookup rid = some fname)
    (hsrc : st.1.pathExists (pjoin resDir fname) = false) :
    copyStep resDir assetsDir lk st (rid, nf) = st ∧
    ∀ (body base : String), rid ∈ findAll body.data →
      ∃ newName, (ridToNewFilename body lk base).lookup rid = some newName ∧
        replFn (ridToNewFilename body lk base) rid =
          ("![](" ++ newName ++ ")").data := by
  constructor
  · unfold copyStep
    simp only [hl, Option.getD_some, hsrc, Bool.false_and, Bool.false_eq_true,
      if_false]
  · intro body base hm
    obtain ⟨nm, hnm⟩ := assignGo_lookup_some lk base rid fname hl
      (dedupRids (findAll body.data)) 0
      (mem_dedupRids_go rid (findAll body.data) [] hm (List.not_mem_nil rid))
    exact ⟨nm, hnm, by rw [replFn, ridToNewFilename, hnm]⟩

/-- Witness for `missing_source_still_rewritten`: identifier indexed to
`a.png`, source `res/a.png` absent from an empty filesystem. -/
theorem missing_source_still_rewritten_witness :
    ([("aaaaaaaaaaaaaaaaaaaaaaaaaaaaaaaa", "a.png")] :
        List (String × String)).lookup "aaaaaaaaaaaaaaaaaaaaaaaaaaaaaaaa" =
      some "a.png" ∧
    (FS.mk [] []).pathExists (pjoin "res" "a.png") = false ∧
    copyStep "res" "assets" [("aaaaaaaaaaaaaaaaaaaaaaaaaaaaaaaa", "a.png")]
        (FS.mk [] [], false) ("aaaaaaaaaaaaaaaaaaaaaaaaaaaaaaaa", "Trip-001.png") =
      (FS.mk [] [], false) :=
  ⟨rfl, by decide,
    (missing_source_still_rewritten "res" "assets"
      [("aaaaaaaaaaaaaaaaaaaaaaaaaaaaaaaa", "a.png")] (FS.mk [] [], false)
      "aaaaaaaaaaaaaaaaaaaaaaaaaaaaaaaa" "Trip-001.png" "a.png" rfl
      (by decide)).1⟩

/-! ## The per-note step of `export_notes` -/

/-- A row of the `notes` query (`id, title, body, parent_id`); `title` and
`body` are optional to model Python's `or` defaults. -/
structure Note where
  id : String
  title : Option String
  body : Option String
  parent_id : String
deriving DecidableEq

/-- The note's output directory: `folder_hierarchy.get(parent_id, "")`
joined under the output directory, or the output directory itself when
the folder path is empty. -/
def noteDirOf (hier : List (String × String)) (output_dir : String)
    (n : Note) : String :=
  if (hier.lookup n.parent_id).getD "" ≠ "" then
    pjoin output_dir ((hier.lookup n.parent_id).getD "")
  else output_dir

/-- The note's output file `<note dir>/<safe title>.md`. -/
def outputFileOf (hier : List (String × String)) (output_dir : String)
    (n : Note) : String :=
  pjoin (noteDirOf hier output_dir n) (safeTitle n.title ++ ".md")

/-- The body of the per-note loop of `export_notes`: compute the safe
title and output path, run `process_resources` when the body is nonempty,
create the note directory on demand, and write the processed body. -/
def processNote (fs : FS) (hier lk : List (String × String))
    (output_dir assets_dir resDir : String) (n : Note) : FS :=
  let res := if n.body.getD "" ≠ "" then
      process_resources fs resDir assets_dir (n.body.getD "") lk (safeTitle n.title)
    else (fs, n.body.getD "")
  let fs2 := if !(res.1.pathExists (noteDirOf hier output_dir n)) then
      res.1.mkdir (noteDirOf hier output_dir n)
    else res.1
  fs2.writeFile (outputFileOf hier output_dir n) res.2

/-! ## Claim C9: empty bodies -/

/-- C9: a note with an empty (or missing) body is written as an empty
output file, the resource rewriter is not invoked (the result is exactly
a directory-ensure plus a write of `""`), and the only directory possibly
created is the note's own output directory — in particular no assets
directory is created for this note. -/
theorem empty_body_export (fs : FS) (hier lk : List (String × String))
    (output_dir assets_dir resDir : String) (n : Note)
    (h : n.body = none ∨ n.body = some "") :
    processNote fs hier lk output_dir assets_dir resDir n =
      FS.writeFile
        (if !(fs.pathExists (noteDirOf hier output_dir n)) then
          fs.mkdir (noteDirOf hier output_dir n)
        else fs)
        (outputFileOf hier output_dir n) "" ∧
    (processNote fs hier lk output_dir assets_dir resDir n).readFile
        (outputFileOf hier output_dir n) = some "" ∧
    ((processNote fs hier lk output_dir assets_dir resDir n).dirs = fs.dirs ∨
      (processNote fs hier lk output_dir assets_dir resDir n).dirs =
        noteDirOf hier output_dir n :: fs.dirs) := by
  have hb : n.body.getD "" = "" := by
    rcases h with h | h <;> rw [h] <;> rfl
  have h1 : processNote fs hier lk output_dir assets_dir resDir n =
      FS.writeFile
        (if !(fs.pathExists (noteDirOf hier output_dir n)) then
          fs.mkdir (noteDirOf hier output_dir n)
        else fs)
        (outputFileOf hier output_dir n) "" := by
    unfold processNote
    rw [hb]
    simp only [ne_eq, not_true_eq_false, if_false, Bool.false_eq_true]
  refine ⟨h1, ?_, ?_⟩
  · rw [h1]
    simp only [FS.readFile, FS.writeFile, List.lookup, beq_self_eq_true]
  · rw [h1]
    by_cases hd : (!(fs.pathExists (noteDirOf hier output_dir n))) = true
    · rw [if_pos hd]
      exact Or.inr rfl
    · rw [if_neg hd]
      exact Or.inl rfl

/-- Witness for `empty_body_export` at a concrete note with body `""` on
an empty filesystem. -/
theorem empty_body_export_witness :
    ((Note.mk "n1" (some "Trip") (some "") "p1").body = none ∨
      (Note.mk "n1" (some "Trip") (some "") "p1").body = some "") ∧
    (processNote (FS.mk [] []) [] [] "out" "assets" "res"
        (Note.mk "n1" (some "Trip") (some "") "p1")).readFile
        (outputFileOf [] "out" (Note.mk "n1" (some "Trip") (some "") "p1")) =
      some "" :=
  ⟨Or.inr rfl,
    (empty_body_export (FS.mk [] []) [] [] "out" "assets" "res"
      (Note.mk "n1" (some "Trip") (some "") "p1") (Or.inr rfl)).2.1⟩

/-! ## Folder hierarchy (`get_folder_hierarchy`)

A row of the `folders` table.  The SQL queries are modelled over a list of
rows in table order: the root query filters parentless rows with the
target title (`fetchone` takes the first), and the children query filters
rows by `parent_id`.  The Python recursion `build_hierarchy` has no
termination guard; it is embedded with a fuel parameter, and
`tbl.length` fuel is proved sufficient for every acyclic table. -/

structure Folder where
  id : String
  title : String
  parent_id : String
deriving DecidableEq

/-- `SELECT id, title FROM folders WHERE parent_id = ?` (rows in table
order). -/
def childrenOf (tbl : List Folder) (pid : String) : List Folder :=
  tbl.filter (fun f => f.parent_id == pid)

/-- `os.path.join(path, sanitize_filename(title)) if path else
sanitize_filename(title)`. -/
def childPath (path title : String) : String :=
  if path = "" then sanitize_filename title
  else pjoin path (sanitize_filename title)

/-- `build_hierarchy(parent_id, path)`: depth-first traversal inserting
`(folder_id, folder_path)` for each child, in discovery order. -/
def buildHierarchy (tbl : List Folder) : Nat → String → String → List (String × String)
  | 0, _, _ => []
  | fuel + 1, pid, path =>
    (childrenOf tbl pid).flatMap fun f =>
      (f.id, childPath path f.title) ::
        buildHierarchy tbl fuel f.id (childPath path f.title)

/-- `get_folder_hierarchy(cursor, target_folder_name)`: `None` models the
raised `ValueError` when no parentless folder has the target title. -/
def getFolderHierarchy (tbl : List Folder) (target : String) :
    Option (List (String × String) × String) :=
  match (tbl.filter (fun f => f.title == target && f.parent_id == "")).head? with
  | none => none
  | some root =>
    some ((root.id, "") :: buildHierarchy tbl tbl.length root.id "", root.id)

/-- `ChainDown tbl pid fs fid`: the rows `fs` (top-down) descend from the
folder id `pid` to the folder id `fid` along parent pointers. -/
def ChainDown (tbl : List Folder) : String → List Folder → String → Prop
  | pid, [], fid => fid = pid
  | pid, f :: fs, fid => f ∈ tbl ∧ f.parent_id = pid ∧ ChainDown tbl f.id fs fid

/-- `fid` is the root itself or one of its descendants. -/
def Reaches (tbl : List Folder) (root fid : String) : Prop :=
  ∃ fs, ChainDown tbl root fs fid

/-- Parent lookup by id (first matching row). -/
def parentOf (tbl : List Folder) (fid : String) : Option String :=
  (tbl.find? (fun f => f.id == fid)).map Folder.parent_id

/-- Iterated parent lookup. -/
def ancIter (tbl : List Folder) : Nat → String → Option String
  | 0, fid => some fid
  | n + 1, fid =>
    match parentOf tbl fid with
    | none => none
    | some p => ancIter tbl n p

/-- Decidable acyclicity: from every row, iterating parent pointers
`tbl.length + 1` times falls off the table. -/
def AcyclicB (tbl : List Folder) : Bool :=
  tbl.all (fun f => (ancIter tbl (tbl.length + 1) f.id).isNone)

theorem chainDown_append (tbl : List Folder) :
    ∀ (xs ys : List Folder) (pid fid : String),
      ChainDown tbl pid (xs ++ ys) fid ↔
        ∃ mid, ChainDown tbl pid xs mid ∧ ChainDown tbl mid ys fid := by
  intro xs
  induction xs with
  | nil =>
    intro ys pid fid
    constructor
    · intro h; exact ⟨pid, rfl, h⟩
    · rintro ⟨mid, hm, hy⟩
      have : mid = pid := hm
      exact this ▸ hy
  | cons f xs ih =>
    intro ys pid fid
    constructor
    · rintro ⟨hf, hp, hch⟩
      obtain ⟨mid, h1, h2⟩ := (ih ys f.id fid).mp hch
      exact ⟨mid, ⟨hf, hp, h1⟩, h2⟩
    · rintro ⟨mid, ⟨hf, hp, h1⟩, h2⟩
      exact ⟨hf, hp, (ih ys f.id fid).mpr ⟨mid, h1, h2⟩⟩

theorem chainDown_mem_tbl (tbl : List Folder) :
    ∀ (fs : List Folder) (pid fid : String), ChainDown tbl pid fs fid →
      ∀ f ∈ fs, f ∈ tbl := by
  intro fs
  induction fs with
  | nil => intro pid fid _ f hf; exact absurd hf (List.not_mem_nil f)
  | cons g gs ih =>
    rintro pid fid ⟨hg, _, hch⟩ f hf
    rcases List.mem_cons.mp hf with h | h
    · exact h ▸ hg
    · exact ih g.id fid hch f h

theorem chainDown_bottom (tbl : List Folder) :
    ∀ (fs : List Folder) (pid fid : String), ChainDown tbl pid fs fid →
      fs ≠ [] → ∃ f ∈ tbl, f.id = fid := by
  intro fs
  induction fs with
  | nil => intro pid fid _ hne; exact absurd rfl hne
  | cons g gs ih =>
    rintro pid fid ⟨hg, _, hch⟩ _
    cases gs with
    | nil => exact ⟨g, hg, hch.symm⟩
    | cons g' gs' => exact ih g.id fid hch (by simp)

/-- With primary-key-unique ids, two rows with the same id coincide. -/
theorem row_eq_of_id_eq {tbl : List Folder}
    (hnd : (tbl.map Folder.id).Nodup) {f g : Folder}
    (hf : f ∈ tbl) (hg : g ∈ tbl) (h : f.id = g.id) : f = g :=
  List.inj_on_of_nodup_map hnd hf hg h

theorem parentOf_mem {tbl : List Folder}
    (hnd : (tbl.map Folder.id).Nodup) {f : Folder} (hf : f ∈ tbl) :
    parentOf tbl f.id = some f.parent_id := by
  unfold parentOf
  cases hfind : tbl.find? (fun g => g.id == f.id) with
  | none =>
    have := List.find?_eq_none.mp hfind f hf
    simp at this
  | some g =>
    have hgt : g ∈ tbl := List.mem_of_find?_eq_some hfind
    have hgi : g.id = f.id := by
      have hp := List.find?_some hfind
      exact eq_of_beq hp
    have : g = f := row_eq_of_id_eq hnd hgt hf hgi
    rw [this]
    rfl

theorem ancIter_add (tbl : List Folder) :
    ∀ (m n : Nat) (x : String),
      ancIter tbl (m + n) x = (ancIter tbl m x).bind (ancIter tbl n) := by
  intro m
  induction m with
  | zero => intro n x; rw [Nat.zero_add]; rfl
  | succ m ih =>
    intro n x
    have h1 : m + 1 + n = (m + n) + 1 := by omega
    rw [h1]
    show (match parentOf tbl x with
      | none => none
      | some p => ancIter tbl (m + n) p) =
      ((match parentOf tbl x with
        | none => none
        | some p => ancIter tbl m p).bind (ancIter tbl n))
    cases parentOf tbl x with
    | none => rfl
    | some p => exact ih n p

theorem ancIter_one (tbl : List Folder) (x : String) :
    ancIter tbl 1 x = parentOf tbl x := by
  show (match parentOf tbl x with
    | none => none
    | some p => ancIter tbl 0 p) = parentOf tbl x
  cases parentOf tbl x <;> rfl

theorem ancIter_of_chain {tbl : List Folder}
    (hnd : (tbl.map Folder.id).Nodup) :
    ∀ (fs : List Folder) (a b : String), ChainDown tbl a fs b →
      ancIter tbl fs.length b = some a := by
  intro fs
  induction fs with
  | nil =>
    intro a b h
    have : b = a := h
    rw [this]; rfl
  | cons f fs ih =>
    rintro a b ⟨hf, hp, hch⟩
    have ihh := ih f.id b hch
    have hlen : (f :: fs).length = fs.length + 1 := rfl
    rw [hlen, ancIter_add tbl fs.length 1 b, ihh, Option.some_bind',
      ancIter_one, parentOf_mem hnd hf, hp]

theorem ancIter_cycle_mul (tbl : List Folder) (k : Nat) (a : String)
    (h : ancIter tbl k a = some a) :
    ∀ q, ancIter tbl (k * q) a = some a := by
  intro q
  induction q with
  | zero => rfl
  | succ q ih =>
    have hq : k * (q + 1) = k * q + k := by ring
    rw [hq, ancIter_add tbl (k * q) k a, ih, Option.some_bind', h]

/-- An acyclic table admits no nonempty parent chain from a folder back to
itself. -/
theorem no_cycle {tbl : List Folder} (hnd : (tbl.map Folder.id).Nodup)
    (hacyc : AcyclicB tbl = true) :
    ∀ (a : String) (fs : List Folder), fs ≠ [] → ¬ ChainDown tbl a fs a := by
  intro a fs hne hch
  have hkpos : 0 < fs.length := List.length_pos.mpr hne
  have hk : ancIter tbl fs.length a = some a := ancIter_of_chain hnd fs a a hch
  obtain ⟨f, hf, hfid⟩ := chainDown_bottom tbl fs a a hch hne
  have hnone : ancIter tbl (tbl.length + 1) f.id = none := by
    have := List.all_eq_true.mp hacyc f hf
    exact Option.isNone_iff_eq_none.mp this
  rw [hfid] at hnone
  set k := fs.length with hkdef
  set N := tbl.length + 1 with hNdef
  have hmod : k * (N / k) + N % k = N := Nat.div_add_mod N k
  have hrlt : N % k < k := Nat.mod_lt N hkpos
  -- a partial descent of length N % k exists inside the cycle
  have hsplit : fs = fs.take (k - N % k) ++ fs.drop (k - N % k) :=
    (List.take_append_drop (k - N % k) fs).symm
  obtain ⟨mid, _, h2⟩ := (chainDown_append tbl _ _ a a).mp (hsplit ▸ hch)
  have hdlen : (fs.drop (k - N % k)).length = N % k := by
    rw [List.length_drop]
    omega
  have hmid : ancIter tbl (N % k) a = some mid := by
    rw [← hdlen]
    exact ancIter_of_chain hnd _ mid a h2
  have : ancIter tbl N a = some mid := by
    rw [← hmod, ancIter_add tbl (k * (N / k)) (N % k) a,
      ancIter_cycle_mul tbl k a hk (N / k), Option.some_bind', hmid]
  rw [hnone] at this
  exact Option.noConfusion this

theorem nodup_subset_length_le {α : Type} [DecidableEq α] {l l' : List α}
    (h : l.Nodup) (hs : ∀ x ∈ l, x ∈ l') : l.length ≤ l'.length := by
  calc l.length = l.toFinset.card := (List.toFinset_card_of_nodup h).symm
    _ ≤ l'.toFinset.card := Finset.card_le_card
        (fun x hx => List.mem_toFinset.mpr (hs x (List.mem_toFinset.mp hx)))
    _ ≤ l'.length := List.toFinset_card_le l'

theorem dup_decomp : ∀ (gs : List Folder), ¬ (gs.map Folder.id).Nodup →
    ∃ as f bs g cs, gs = as ++ (f :: (bs ++ (g :: cs))) ∧ f.id = g.id := by
  intro gs
  induction gs with
  | nil => intro h; exact absurd (by simp) h
  | cons f rest ih =>
    intro h
    by_cases hmem : f.id ∈ rest.map Folder.id
    · obtain ⟨g, hg, hgid⟩ := List.mem_map.mp hmem
      obtain ⟨bs, cs, hsplit⟩ := List.append_of_mem hg
      exact ⟨[], f, bs, g, cs, by rw [hsplit]; rfl, hgid.symm⟩
    · have hrest : ¬ (rest.map Folder.id).Nodup := by
        intro hn
        exact h (by simp [List.nodup_cons, hmem, hn])
      obtain ⟨as, f', bs, g, cs, heq, hid⟩ := ih hrest
      exact ⟨f :: as, f', bs, g, cs, by rw [heq]; rfl, hid⟩

theorem chain_splice {tbl : List Folder} {pid fid : String}
    {as bs cs : List Folder} {f g : Folder}
    (h : ChainDown tbl pid (as ++ (f :: (bs ++ (g :: cs)))) fid)
    (hid : f.id = g.id) :
    ChainDown tbl pid (as ++ (f :: cs)) fid := by
  obtain ⟨m1, h_as, h_rest⟩ :=
    (chainDown_append tbl as (f :: (bs ++ g :: cs)) pid fid).mp h
  obtain ⟨hf, hfp, hch⟩ := h_rest
  obtain ⟨m2, h_bs, h_g⟩ := (chainDown_append tbl bs (g :: cs) f.id fid).mp hch
  obtain ⟨hg, hgp, hcs⟩ := h_g
  refine (chainDown_append tbl as (f :: cs) pid fid).mpr ⟨m1, h_as, hf, hfp, ?_⟩
  rw [hid]
  exact hcs

theorem chain_shorten {tbl : List Folder} (hnd : (tbl.map Folder.id).Nodup) :
    ∀ (n : Nat) (fs : List Folder) (pid fid : String), fs.length ≤ n →
      ChainDown tbl pid fs fid →
      ∃ gs, ChainDown tbl pid gs fid ∧ gs.length ≤ tbl.length := by
  intro n
  induction n with
  | zero =>
    intro fs pid fid hlen hch
    have h0 : fs = [] := List.length_eq_zero.mp (Nat.le_zero.mp hlen)
    exact ⟨[], h0 ▸ hch, Nat.zero_le _⟩
  | succ n ih =>
    intro fs pid fid hlen hch
    by_cases hle : fs.length ≤ tbl.length
    · exact ⟨fs, hch, hle⟩
    · have hrows : ∀ x ∈ fs.map Folder.id, x ∈ tbl.map Folder.id := by
        intro x hx
        obtain ⟨f, hf, hfx⟩ := List.mem_map.mp hx
        exact List.mem_map.mpr ⟨f, chainDown_mem_tbl tbl fs pid fid hch f hf, hfx⟩
      have hnn : ¬ (fs.map Folder.id).Nodup := by
        intro hn
        apply hle
        have hll := nodup_subset_length_le hn hrows
        simpa using hll
      obtain ⟨as, f, bs, g, cs, heq, hid⟩ := dup_decomp fs hnn
      have hch' : ChainDown tbl pid (as ++ (f :: cs)) fid :=
        chain_splice (heq ▸ hch) hid
      refine ih (as ++ (f :: cs)) pid fid ?_ hch'
      have hfl : fs.length = as.length + 1 + (bs.length + 1 + cs.length) := by
        rw [heq]
        simp [List.length_append]
        omega
      have hcl : (as ++ (f :: cs)).length = as.length + 1 + cs.length := by
        simp [List.length_append]
        omega
      omega

theorem buildHierarchy_complete {tbl : List Folder} :
    ∀ (fs : List Folder) (fuel : Nat) (pid path fid : String),
      ChainDown tbl pid fs fid → fs ≠ [] → fs.length ≤ fuel →
      ∃ p, (fid, p) ∈ buildHierarchy tbl fuel pid path := by
  intro fs
  induction fs with
  | nil => intro fuel pid path fid _ hne _; exact absurd rfl hne
  | cons f fs ih =>
    rintro fuel pid path fid ⟨hf, hfp, hch⟩ _ hlen
    cases fuel with
    | zero => simp at hlen
    | succ fuel =>
      have hmem : f ∈ childrenOf tbl pid :=
        List.mem_filter.mpr ⟨hf, by simp [hfp]⟩
      by_cases hfs : fs = []
      · subst hfs
        have hfid : fid = f.id := hch
        subst hfid
        refine ⟨childPath path f.title, ?_⟩
        show (f.id, childPath path f.title) ∈
          (childrenOf tbl pid).flatMap fun g =>
            (g.id, childPath path g.title) ::
              buildHierarchy tbl fuel g.id (childPath path g.title)
        exact List.mem_flatMap.mpr ⟨f, hmem, List.mem_cons_self _ _⟩
      · obtain ⟨p, hp⟩ := ih fuel f.id (childPath path f.title) fid hch hfs
          (by simpa using Nat.succ_le_succ_iff.mp hlen)
        refine ⟨p, ?_⟩
        show (fid, p) ∈
          (childrenOf tbl pid).flatMap fun g =>
            (g.id, childPath path g.title) ::
              buildHierarchy tbl fuel g.id (childPath path g.title)
        exact List.mem_flatMap.mpr ⟨f, hmem, List.mem_cons_of_mem _ hp⟩

theorem buildHierarchy_sound {tbl : List Folder} :
    ∀ (fuel : Nat) (pid path fid p : String),
      (fid, p) ∈ buildHierarchy tbl fuel pid path →
      ∃ fs, fs ≠ [] ∧ ChainDown tbl pid fs fid := by
  intro fuel
  induction fuel with
  | zero => intro pid path fid p h; simp [buildHierarchy] at h
  | succ fuel ih =>
    intro pid path fid p h
    obtain ⟨f, hfc, hmem⟩ := List.mem_flatMap.mp h
    have hf : f ∈ tbl := (List.mem_filter.mp hfc).1
    have hfp : f.parent_id = pid := by
      have hb := (List.mem_filter.mp hfc).2
      exact eq_of_beq hb
    rcases List.mem_cons.mp hmem with he | he
    · have hfid : fid = f.id := congrArg Prod.fst he
      exact ⟨[f], by simp, hf, hfp, hfid⟩
    · obtain ⟨fs, hne, hch⟩ := ih f.id (childPath path f.title) fid p he
      exact ⟨f :: fs, by simp, hf, hfp, hch⟩

theorem buildHierarchy_paths {tbl : List Folder} :
    ∀ (fuel : Nat) (pid path : String) (e : String × String),
      e ∈ buildHierarchy tbl fuel pid path →
      (∃ f, f ∈ tbl ∧ f.id = e.1 ∧ f.parent_id = pid ∧
        e.2 = childPath path f.title) ∨
      (∃ f, f ∈ tbl ∧ f.id = e.1 ∧ ∃ pp,
        (f.parent_id, pp) ∈ buildHierarchy tbl fuel pid path ∧
        e.2 = childPath pp f.title) := by
  intro fuel
  induction fuel with
  | zero => intro pid path e h; simp [buildHierarchy] at h
  | succ fuel ih =>
    intro pid path e h
    obtain ⟨f, hfc, hmem⟩ := List.mem_flatMap.mp h
    have hf : f ∈ tbl := (List.mem_filter.mp hfc).1
    have hfp : f.parent_id = pid := by
      have hb := (List.mem_filter.mp hfc).2
      exact eq_of_beq hb
    rcases List.mem_cons.mp hmem with he | he
    · left
      exact ⟨f, hf, (congrArg Prod.fst he).symm, hfp,
        congrArg Prod.snd he⟩
    · rcases ih f.id (childPath path f.title) e he with
        ⟨g, hg, hgid, hgp, hgpath⟩ | ⟨g, hg, hgid, pp, hpp, hgpath⟩
      · right
        refine ⟨g, hg, hgid, childPath path f.title, ?_, hgpath⟩
        rw [hgp]
        show (f.id, childPath path f.title) ∈
          (childrenOf tbl pid).flatMap fun g' =>
            (g'.id, childPath path g'.title) ::
              buildHierarchy tbl fuel g'.id (childPath path g'.title)
        exact List.mem_flatMap.mpr ⟨f, hfc, List.mem_cons_self _ _⟩
      · right
        refine ⟨g, hg, hgid, pp, ?_, hgpath⟩
        show (g.parent_id, pp) ∈
          (childrenOf tbl pid).flatMap fun g' =>
            (g'.id, childPath path g'.title) ::
              buildHierarchy tbl fuel g'.id (childPath path g'.title)
        exact List.mem_flatMap.mpr ⟨f, hfc, List.mem_cons_of_mem _ hpp⟩

theorem no_cross_chain {tbl : List Folder} (hnd : (tbl.map Folder.id).Nodup)
    (hacyc : AcyclicB tbl = true) {pid : String} {f g : Folder}
    (hf : f ∈ tbl) (hfp : f.parent_id = pid) (hg : g ∈ tbl)
    (hgp : g.parent_id = pid) (hne : f ≠ g) :
    ∀ fs, fs ≠ [] → ¬ ChainDown tbl g.id fs f.id := by
  intro fs hfs hch
  rcases fs.eq_nil_or_concat' with h0 | ⟨fs', h, heq⟩
  · exact hfs h0
  subst heq
  obtain ⟨mid, h1, h2⟩ := (chainDown_append tbl fs' [h] g.id f.id).mp hch
  obtain ⟨hh, hhp, hhid⟩ := h2
  have hidf : f.id = h.id := hhid
  have hhf : h = f := row_eq_of_id_eq hnd hh hf hidf.symm
  have hmid : mid = pid := by rw [← hhp, hhf, hfp]
  rw [hmid] at h1
  exact no_cycle hnd hacyc pid (g :: fs') (by simp) ⟨hg, hgp, h1⟩

theorem chain_suffix {tbl : List Folder} (hnd : (tbl.map Folder.id).Nodup) :
    ∀ (n : Nat) (as bs : List Folder) (a b x : String),
      as.length ≤ n → ChainDown tbl a as x → ChainDown tbl b bs x →
      as.length ≤ bs.length →
      ∃ cs, bs = cs ++ as ∧ ChainDown tbl b cs a := by
  intro n
  induction n with
  | zero =>
    intro as bs a b x hn ha hb _
    have h0 : as = [] := List.length_eq_zero.mp (Nat.le_zero.mp hn)
    subst h0
    have hxa : x = a := ha
    subst hxa
    exact ⟨bs, (List.append_nil bs).symm, hb⟩
  | succ n ih =>
    intro as bs a b x hn ha hb hlen
    rcases as.eq_nil_or_concat' with h0 | ⟨as', h, heqa⟩
    · subst h0
      have hxa : x = a := ha
      subst hxa
      exact ⟨bs, (List.append_nil bs).symm, hb⟩
    subst heqa
    rcases bs.eq_nil_or_concat' with h0 | ⟨bs', h2, heqb⟩
    · subst h0
      simp at hlen
    subst heqb
    obtain ⟨m1, ha1, ha2⟩ := (chainDown_append tbl as' [h] a x).mp ha
    obtain ⟨hh, hhp, hhx⟩ := ha2
    obtain ⟨m2, hb1, hb2⟩ := (chainDown_append tbl bs' [h2] b x).mp hb
    obtain ⟨hh2, hh2p, hh2x⟩ := hb2
    have hxh : x = h.id := hhx
    have hxh2 : x = h2.id := hh2x
    have hhh : h2 = h := row_eq_of_id_eq hnd hh2 hh (by rw [← hxh2, hxh])
    have hm : m2 = m1 := by rw [← hh2p, hhh, hhp]
    rw [hm] at hb1
    have hlen' : as'.length ≤ n := by
      simp [List.length_append] at hn
      omega
    have hlen2 : as'.length ≤ bs'.length := by
      simp [List.length_append] at hlen
      omega
    obtain ⟨cs, hcs1, hcs2⟩ := ih as' bs' a b m1 hlen' ha1 hb1 hlen2
    refine ⟨cs, ?_, hcs2⟩
    rw [hcs1, hhh, List.append_assoc]

theorem buildHierarchy_keys_nodup {tbl : List Folder}
    (hnd : (tbl.map Folder.id).Nodup) (hacyc : AcyclicB tbl = true) :
    ∀ (fuel : Nat) (pid path : String),
      ((buildHierarchy tbl fuel pid path).map Prod.fst).Nodup := by
  intro fuel
  induction fuel with
  | zero => intro pid path; simp [buildHierarchy]
  | succ fuel ih =>
    intro pid path
    have hkeys : (buildHierarchy tbl (fuel + 1) pid path).map Prod.fst =
        (childrenOf tbl pid).flatMap fun f =>
          f.id :: (buildHierarchy tbl fuel f.id (childPath path f.title)).map
            Prod.fst := by
      show (((childrenOf tbl pid).flatMap fun f =>
          (f.id, childPath path f.title) ::
            buildHierarchy tbl fuel f.id (childPath path f.title)).map Prod.fst) = _
      rw [List.map_flatMap]
      simp
    rw [hkeys, List.nodup_flatMap]
    constructor
    · intro f hfc
      apply List.nodup_cons.mpr
      refine ⟨?_, ih f.id (childPath path f.title)⟩
      intro hmem
      obtain ⟨e, he, hfst⟩ := List.mem_map.mp hmem
      obtain ⟨fs, hfs, hch⟩ :=
        buildHierarchy_sound fuel f.id (childPath path f.title) e.1 e.2 he
      rw [hfst] at hch
      exact no_cycle hnd hacyc f.id fs hfs hch
    · have hcnd : (childrenOf tbl pid).Nodup :=
        (List.Nodup.of_map Folder.id hnd).filter _
      apply hcnd.pairwise_of_forall_ne
      intro f hfc g hgc hfg
      intro x hxf hxg
      have hf : f ∈ tbl := (List.mem_filter.mp hfc).1
      have hfp : f.parent_id = pid := eq_of_beq (List.mem_filter.mp hfc).2
      have hg : g ∈ tbl := (List.mem_filter.mp hgc).1
      have hgp : g.parent_id = pid := eq_of_beq (List.mem_filter.mp hgc).2
      rcases List.mem_cons.mp hxf with hxf' | hxf' <;>
        rcases List.mem_cons.mp hxg with hxg' | hxg'
      · exact hfg (row_eq_of_id_eq hnd hf hg (by rw [← hxf', ← hxg']))
      · obtain ⟨e, he, hfst⟩ := List.mem_map.mp hxg'
        obtain ⟨fs, hfs, hch⟩ :=
          buildHierarchy_sound fuel g.id (childPath path g.title) e.1 e.2 he
        rw [hfst, hxf'] at hch
        exact no_cross_chain hnd hacyc hf hfp hg hgp hfg fs hfs hch
      · obtain ⟨e, he, hfst⟩ := List.mem_map.mp hxf'
        obtain ⟨fs, hfs, hch⟩ :=
          buildHierarchy_sound fuel f.id (childPath path f.title) e.1 e.2 he
        rw [hfst, hxg'] at hch
        exact no_cross_chain hnd hacyc hg hgp hf hfp (Ne.symm hfg) fs hfs hch
      · obtain ⟨e1, he1, hfst1⟩ := List.mem_map.mp hxf'
        obtain ⟨as, has, hchf⟩ :=
          buildHierarchy_sound fuel f.id (childPath path f.title) e1.1 e1.2 he1
        rw [hfst1] at hchf
        obtain ⟨e2, he2, hfst2⟩ := List.mem_map.mp hxg'
        obtain ⟨bs, hbs, hchg⟩ :=
          buildHierarchy_sound fuel g.id (childPath path g.title) e2.1 e2.2 he2
        rw [hfst2] at hchg
        rcases Nat.le_total as.length bs.length with hle | hle
        · obtain ⟨cs, hcs1, hcs2⟩ :=
            chain_suffix hnd as.length as bs f.id g.id x le_rfl hchf hchg hle
          rcases cs.eq_nil_or_concat' with h0 | ⟨cs', c, heqc⟩
          · subst h0
            have : f.id = g.id := hcs2
            exact hfg (row_eq_of_id_eq hnd hf hg this)
          · exact no_cross_chain hnd hacyc hf hfp hg hgp hfg cs
              (by rw [heqc]; simp) hcs2
        · obtain ⟨cs, hcs1, hcs2⟩ :=
            chain_suffix hnd bs.length bs as g.id f.id x le_rfl hchg hchf hle
          rcases cs.eq_nil_or_concat' with h0 | ⟨cs', c, heqc⟩
          · subst h0
            have : g.id = f.id := hcs2
            exact hfg (row_eq_of_id_eq hnd hf hg this.symm)
          · exact no_cross_chain hnd hacyc hg hgp hf hfp (Ne.symm hfg) cs
              (by rw [heqc]; simp) hcs2

theorem lookup_of_mem_nodup :
    ∀ (l : List (String × String)), ((l.map Prod.fst).Nodup) →
      ∀ (k v : String), (k, v) ∈ l → l.lookup k = some v := by
  intro l
  induction l with
  | nil => intro _ k v h; exact absurd h (List.not_mem_nil _)
  | cons e rest ih =>
    intro hnd k v h
    obtain ⟨a, b⟩ := e
    simp only [List.map_cons] at hnd
    obtain ⟨hna, hnr⟩ := List.nodup_cons.mp hnd
    rcases List.mem_cons.mp h with he | he
    · obtain ⟨hk, hv⟩ := Prod.mk.injEq .. ▸ he
      subst hk; subst hv
      simp [List.lookup]
    · have hka : (k == a) = false := by
        apply beq_eq_false_iff_ne.mpr
        intro hk
        subst hk
        exact hna (List.mem_map.mpr ⟨(k, v), he, rfl⟩)
      simp only [List.lookup, hka]
      exact ih hnr k v he

/-- C7: over an acyclic folder table with primary-key-unique ids and
exactly one parentless row carrying the target title,
`get_folder_hierarchy` succeeds and returns a mapping with exactly one
entry per folder reachable from that root (the root and its descendants,
and no others), the root mapped to the empty path and every other entry's
path being its parent's path joined (per the source's
`os.path.join`-or-bare rule) with the sanitized child title. -/
theorem getFolderHierarchy_correct (tbl : List Folder) (target : String)
    (hnd : (tbl.map Folder.id).Nodup)
    (hacyc : AcyclicB tbl = true)
    (hroot : (tbl.filter fun f => f.title == target && f.parent_id == "").length = 1) :
    ∃ m rootId, getFolderHierarchy tbl target = some (m, rootId) ∧
      (m.map Prod.fst).Nodup ∧
      (∀ fid, fid ∈ m.map Prod.fst ↔ Reaches tbl rootId fid) ∧
      m.lookup rootId = some "" ∧
      (∀ e ∈ m, e.1 ≠ rootId → ∃ f, f ∈ tbl ∧ f.id = e.1 ∧
        ∃ pp, m.lookup f.parent_id = some pp ∧ e.2 = childPath pp f.title) := by
  obtain ⟨root, hfil⟩ := List.length_eq_one.mp hroot
  have hroot_mem : root ∈ tbl := by
    have hmem : root ∈ tbl.filter fun f => f.title == target && f.parent_id == "" :=
      hfil ▸ List.mem_cons_self root []
    exact (List.mem_filter.mp hmem).1
  have hBnodup := buildHierarchy_keys_nodup hnd hacyc tbl.length root.id ""
  have hroot_notin :
      root.id ∉ (buildHierarchy tbl tbl.length root.id "").map Prod.fst := by
    intro hmem
    obtain ⟨e, he, hfst⟩ := List.mem_map.mp hmem
    obtain ⟨fs, hfs, hch⟩ := buildHierarchy_sound tbl.length root.id "" e.1 e.2 he
    rw [hfst] at hch
    exact no_cycle hnd hacyc root.id fs hfs hch
  have hm : getFolderHierarchy tbl target =
      some ((root.id, "") :: buildHierarchy tbl tbl.length root.id "", root.id) := by
    unfold getFolderHierarchy
    rw [hfil]
    rfl
  refine ⟨(root.id, "") :: buildHierarchy tbl tbl.length root.id "", root.id, hm,
    ?_, ?_, ?_, ?_⟩
  · simp only [List.map_cons]
    exact List.nodup_cons.mpr ⟨hroot_notin, hBnodup⟩
  · intro fid
    constructor
    · intro hmem
      simp only [List.map_cons, List.mem_cons] at hmem
      rcases hmem with he | he
      · exact ⟨[], he⟩
      · obtain ⟨e, hee, hfst⟩ := List.mem_map.mp he
        obtain ⟨fs, _, hch⟩ :=
          buildHierarchy_sound tbl.length root.id "" e.1 e.2 hee
        exact ⟨fs, hfst ▸ hch⟩
    · rintro ⟨fs, hch⟩
      by_cases hfid : fid = root.id
      · simp [hfid]
      · obtain ⟨gs, hgs, hglen⟩ :=
          chain_shorten hnd fs.length fs root.id fid le_rfl hch
        have hgne : gs ≠ [] := by
          intro h0
          subst h0
          exact hfid hgs
        obtain ⟨p, hp⟩ :=
          buildHierarchy_complete gs tbl.length root.id "" fid hgs hgne hglen
        simp only [List.map_cons, List.mem_cons]
        exact Or.inr (List.mem_map.mpr ⟨(fid, p), hp, rfl⟩)
  · simp [List.lookup]
  · intro e he hene
    have heB : e ∈ buildHierarchy tbl tbl.length root.id "" := by
      rcases List.mem_cons.mp he with h0 | h0
      · exact absurd (congrArg Prod.fst h0) hene
      · exact h0
    rcases buildHierarchy_paths tbl.length root.id "" e heB with
      ⟨f, hf, hfid, hfp, hpath⟩ | ⟨f, hf, hfid, pp, hpp, hpath⟩
    · refine ⟨f, hf, hfid, "", ?_, hpath⟩
      rw [hfp]
      simp [List.lookup]
    · refine ⟨f, hf, hfid, pp, ?_, hpath⟩
      have hfpne : (f.parent_id == root.id) = false := by
        apply beq_eq_false_iff_ne.mpr
        intro hpe
        exact hroot_notin (List.mem_map.mpr ⟨(f.parent_id, pp), hpp, hpe⟩)
      simp only [List.lookup, hfpne]
      exact lookup_of_mem_nodup _ hBnodup f.parent_id pp hpp

/-- Witness for `getFolderHierarchy_correct` at a two-row table with root
`joplin` and one child. -/
theorem getFolderHierarchy_correct_witness :
    ((([⟨"r1", "joplin", ""⟩, ⟨"f2", "sub", "r1"⟩] : List Folder).map
        Folder.id).Nodup ∧
      AcyclicB [⟨"r1", "joplin", ""⟩, ⟨"f2", "sub", "r1"⟩] = true ∧
      (([⟨"r1", "joplin", ""⟩, ⟨"f2", "sub", "r1"⟩] : List Folder).filter
        fun f => f.title == "joplin" && f.parent_id == "").length = 1) ∧
    (∃ m rootId,
      getFolderHierarchy [⟨"r1", "joplin", ""⟩, ⟨"f2", "sub", "r1"⟩] "joplin" =
        some (m, rootId) ∧
      (m.map Prod.fst).Nodup ∧
      (∀ fid, fid ∈ m.map Prod.fst ↔
        Reaches [⟨"r1", "joplin", ""⟩, ⟨"f2", "sub", "r1"⟩] rootId fid) ∧
      m.lookup rootId = some "" ∧
      (∀ e ∈ m, e.1 ≠ rootId →
        ∃ f, f ∈ ([⟨"r1", "joplin", ""⟩, ⟨"f2", "sub", "r1"⟩] : List Folder) ∧
          f.id = e.1 ∧ ∃ pp, m.lookup f.parent_id = some pp ∧
            e.2 = childPath pp f.title)) :=
  ⟨⟨by decide, by decide, by decide⟩,
    getFolderHierarchy_correct [⟨"r1", "joplin", ""⟩, ⟨"f2", "sub", "r1"⟩]
      "joplin" (by decide) (by decide) (by decide)⟩

end JoplinToObsidian
